import Mathlib

/-!
Verification of the Verilator simulation driver `src/sim_main.cpp` of the
verilog-pi-calculator repository.

The driver owns an instance of the simulated `Vpi_calculator` module, which is
an opaque external producer: the driver only writes its input ports
(`clock`, `reset_n`, `start`, `digits`), calls `eval()`, and reads its output
ports (`valid_output`, `pi_digit`, `done`).  We therefore embed the module as
an arbitrary deterministic state machine over an abstract state type `σ`:
`eval` advances the state given the current input port values, `out` reads the
output ports of a state, and `gotFinish` models `Verilated::gotFinish()`
(whether the simulation runtime has reported that no scheduled work remains).

The driver itself (`main` of `sim_main.cpp`) is embedded as an explicit state
(`Driver`) together with an event trace recording, in program order, every
observable action the driver performs: evaluations, input-port assignments,
printed digits, and the final `final()` / `delete` calls.  The whole run is a
fuel-indexed execution of the `while (!Verilated::gotFinish())` loop.
-/

namespace PiDriver

/-- Input ports of `Vpi_calculator` as driven by `sim_main.cpp`:
`top->clock`, `top->reset_n`, `top->start`, `top->digits`. -/
structure Inputs where
  clock : Bool
  reset_n : Bool
  start : Bool
  digits : Nat
deriving Repr, DecidableEq

/-- Output ports of `Vpi_calculator` as read by `sim_main.cpp`:
`top->valid_output`, `top->pi_digit`, `top->done`. -/
structure Outputs where
  valid_output : Bool
  pi_digit : Nat
  done : Bool
deriving Repr, DecidableEq

/-- The opaque simulated module together with the simulation runtime, as a
deterministic state machine: `eval s i` is the state after `top->eval()` when
the module state is `s` and the input ports hold `i`; `out s` are the output
port values readable in state `s`; `gotFinish s` is the value
`Verilated::gotFinish()` returns when the module state is `s`. -/
structure Module (σ : Type) where
  init : σ
  eval : σ → Inputs → σ
  out : σ → Outputs
  gotFinish : σ → Bool

/-- Observable actions of the driver, in program order:
`evalCall` is `top->eval()`; `setResetN b`, `setStart b`, `setDigits n` and
`setClock b` are assignments to the corresponding input ports; `emit d` is
`VL_PRINTF("%09d\n", top->pi_digit)` with `top->pi_digit = d`; `finalCall` is
`top->final()` and `deleteCall` is `delete top`. -/
inductive Event where
  | evalCall
  | setResetN (b : Bool)
  | setStart (b : Bool)
  | setDigits (n : Nat)
  | setClock (b : Bool)
  | emit (d : Nat)
  | finalCall
  | deleteCall
deriving Repr, DecidableEq

/-- The driver-side state: the module state held by `top`, the current values
of the input ports, and the `is_first_run` flag. -/
structure Driver (σ : Type) where
  mstate : σ
  inputs : Inputs
  is_first_run : Bool

/-- `const unsigned int REQUEST_DIGITS = 1000000;` -/
def REQUEST_DIGITS : Nat := 1000000

/-- The input-port values established by the initialization section of `main`:
`top->clock = 0; top->reset_n = 0; top->start = 0; top->digits = REQUEST_DIGITS;` -/
def initInputs : Inputs :=
  { clock := false, reset_n := false, start := false, digits := REQUEST_DIGITS }

/-- The driver state on entry to the `while` loop. -/
def initDriver (M : Module σ) : Driver σ :=
  { mstate := M.init, inputs := initInputs, is_first_run := true }

/-- The trace of the initialization assignments, in program order. -/
def initTrace : List Event :=
  [Event.setClock false, Event.setResetN false, Event.setStart false,
   Event.setDigits REQUEST_DIGITS]

/-- Result of one execution of the loop body: the driver state afterwards, the
events performed, and whether the `break` statement was reached. -/
structure IterResult (σ : Type) where
  driver : Driver σ
  events : List Event
  brk : Bool

/-- One execution of the body of `while (!Verilated::gotFinish())`:

    top->eval();
    if (is_first_run) { top->reset_n = 1; top->start = 1; is_first_run = false; }
    top->clock = !top->clock;
    if (top->clock) {
        if (top->valid_output) {
            VL_PRINTF("%09d\n", top->pi_digit);
            if (top->done) break;
        }
    }

The output ports read after the toggle are those of the state produced by the
`eval` at the top of the body (no further `eval` happens in between). -/
def iterate (M : Module σ) (d : Driver σ) : IterResult σ :=
  { driver :=
      { mstate := M.eval d.mstate d.inputs
        inputs :=
          { clock := !d.inputs.clock
            reset_n := if d.is_first_run then true else d.inputs.reset_n
            start := if d.is_first_run then true else d.inputs.start
            digits := d.inputs.digits }
        is_first_run := false }
    events :=
      Event.evalCall ::
        (if d.is_first_run then [Event.setResetN true, Event.setStart true] else []) ++
          (Event.setClock (!d.inputs.clock) ::
            (if (!d.inputs.clock) && (M.out (M.eval d.mstate d.inputs)).valid_output then
              [Event.emit (M.out (M.eval d.mstate d.inputs)).pi_digit]
            else []))
    brk :=
      (!d.inputs.clock) && (M.out (M.eval d.mstate d.inputs)).valid_output &&
        (M.out (M.eval d.mstate d.inputs)).done }

/-- The driver state transformer of one loop-body execution (the state is
updated the same way whether or not the body ends in `break`). -/
def dstep (M : Module σ) (d : Driver σ) : Driver σ :=
  (iterate M d).driver

/-- How the `while` loop ended: by the `break` statement, or because
`Verilated::gotFinish()` returned true at the loop head. -/
inductive ExitKind where
  | breakExit
  | finishExit
deriving Repr, DecidableEq

/-- Result of running the loop (and the code after it): number of loop-body
executions, how the loop exited (`none` when the fuel ran out with the loop
still running), the final driver state, and the event trace. -/
structure RunResult (σ : Type) where
  iters : Nat
  exit : Option ExitKind
  driver : Driver σ
  trace : List Event

/-- The `while (!Verilated::gotFinish())` loop, run for at most `fuel`
body executions starting from driver state `d`. -/
def loopRun (M : Module σ) : Nat → Driver σ → RunResult σ
  | 0, d => ⟨0, none, d, []⟩
  | fuel + 1, d =>
    if M.gotFinish d.mstate then
      ⟨0, some ExitKind.finishExit, d, []⟩
    else if (iterate M d).brk then
      ⟨1, some ExitKind.breakExit, (iterate M d).driver, (iterate M d).events⟩
    else
      ⟨(loopRun M fuel (iterate M d).driver).iters + 1,
       (loopRun M fuel (iterate M d).driver).exit,
       (loopRun M fuel (iterate M d).driver).driver,
       (iterate M d).events ++ (loopRun M fuel (iterate M d).driver).trace⟩

/-- A whole run of `main`: initialization, the loop, and — whenever the loop
actually exited — `top->final(); delete top;`. -/
def run (M : Module σ) (fuel : Nat) : RunResult σ :=
  { iters := (loopRun M fuel (initDriver M)).iters
    exit := (loopRun M fuel (initDriver M)).exit
    driver := (loopRun M fuel (initDriver M)).driver
    trace :=
      initTrace ++ (loopRun M fuel (initDriver M)).trace ++
        (if (loopRun M fuel (initDriver M)).exit.isSome then
          [Event.finalCall, Event.deleteCall]
        else []) }

/-- The driver state before loop-body execution number `k` (0-indexed). -/
def dstates (M : Module σ) (k : Nat) : Driver σ :=
  (dstep M)^[k] (initDriver M)

/-- The process exit status: `main` ends in `return 0;`, reached exactly when
the loop exits. -/
def exitCode (M : Module σ) (fuel : Nat) : Option Nat :=
  ((run M fuel).exit).map (fun _ => 0)

/-- The digit printed by an event, if any. -/
def emitVal : Event → Option Nat
  | Event.emit d => some d
  | _ => none

/-- The sequence of digits printed along a trace, in order. -/
def emits (tr : List Event) : List Nat :=
  tr.filterMap emitVal

/-- `VL_PRINTF("%09d\n", d)` for a digit value `d` (`pi_digit` is an unsigned
port; for the values at issue the signed conversion of `%d` is the identity):
the decimal representation of `d`, left-padded with `'0'` to width 9,
followed by a newline. -/
def formatLine (d : Nat) : String :=
  String.mk (List.replicate (9 - (toString d).length) '0') ++ toString d ++ "\n"

/-- Everything the run writes to standard output. -/
def stdoutOf (M : Module σ) (fuel : Nat) : String :=
  String.join ((emits (run M fuel).trace).map formatLine)

/-- Modelled from the spec (section 8, order preservation): the reference
stream the emitted digits are compared against — at a rising-edge cycle
(an iteration whose post-toggle clock is high, i.e. whose pre-toggle clock is
low) where `valid_output` is true, the value of `pi_digit`; at any other
iteration, nothing. -/
def sampleAt (M : Module σ) (d : Driver σ) : Option Nat :=
  if (!d.inputs.clock) && (M.out (M.eval d.mstate d.inputs)).valid_output then
    some (M.out (M.eval d.mstate d.inputs)).pi_digit
  else
    none

/-! ### Concrete scripted modules, used to instantiate the theorems. -/

/-- Output script of `demoM`: digits 3, 1, 4 on three consecutive valid
cycles, with `done` accompanying the last. -/
def demoOut : Nat → Outputs
  | 1 => ⟨true, 3, false⟩
  | 2 => ⟨true, 1, false⟩
  | 3 => ⟨true, 4, true⟩
  | _ => ⟨false, 0, false⟩

/-- A scripted producer that advances on each rising clock edge out of reset
and emits the digits 3, 1, 4, asserting `done` with the last one. -/
def demoM : Module Nat :=
  { init := 0
    eval := fun s i => if i.clock = false && i.reset_n then s + 1 else s
    out := demoOut
    gotFinish := fun _ => false }

/-- A producer that never asserts `valid_output`; the runtime reports no
remaining work after five evaluations. -/
def quietM : Module Nat :=
  { init := 0
    eval := fun s _ => s + 1
    out := fun _ => ⟨false, 0, false⟩
    gotFinish := fun s => decide (5 ≤ s) }

/-! ### Basic facts about one loop-body execution. -/

theorem dstep_is_first_run (M : Module σ) (d : Driver σ) :
    (dstep M d).is_first_run = false := rfl

theorem dstep_digits (M : Module σ) (d : Driver σ) :
    (dstep M d).inputs.digits = d.inputs.digits := rfl

theorem dstep_clock (M : Module σ) (d : Driver σ) :
    (dstep M d).inputs.clock = !d.inputs.clock := rfl

theorem iterate_first_false (M : Module σ) (d : Driver σ) (hd : d.is_first_run = false) :
    ∀ k, ((dstep M)^[k] d).is_first_run = false := by
  intro k
  cases k with
  | zero => simpa using hd
  | succ n =>
    rw [Function.iterate_succ_apply']
    exact dstep_is_first_run M _

/-- The digits printed during one loop-body execution are exactly the sample
the handshake says should be taken there. -/
theorem emits_iterate (M : Module σ) (d : Driver σ) :
    emits (iterate M d).events = (sampleAt M d).toList := by
  cases h1 : d.is_first_run <;>
    cases h2 : (!d.inputs.clock) && (M.out (M.eval d.mstate d.inputs)).valid_output <;>
      simp [iterate, emits, sampleAt, emitVal, h1, h2]

/-- Every event of one loop-body execution is an evaluation, the one-shot
raising of `reset_n`/`start`, the clock toggle, or the guarded digit print. -/
theorem mem_iterate_events {M : Module σ} {d : Driver σ} {e : Event}
    (h : e ∈ (iterate M d).events) :
    e = Event.evalCall ∨
    (d.is_first_run = true ∧ (e = Event.setResetN true ∨ e = Event.setStart true)) ∨
    e = Event.setClock (!d.inputs.clock) ∨
    (∃ x, e = Event.emit x ∧
      ((!d.inputs.clock) && (M.out (M.eval d.mstate d.inputs)).valid_output) = true ∧
      x = (M.out (M.eval d.mstate d.inputs)).pi_digit) := by
  cases h1 : d.is_first_run <;>
    cases h2 : (!d.inputs.clock) && (M.out (M.eval d.mstate d.inputs)).valid_output <;>
      simp [iterate, h1, h2] at h <;> tauto

/-- When the body ends in `break`, its trace ends with the printed digit. -/
theorem iterate_events_of_brk {M : Module σ} {d : Driver σ}
    (h : (iterate M d).brk = true) :
    ∃ pre, (iterate M d).events =
      pre ++ [Event.emit ((M.out (M.eval d.mstate d.inputs)).pi_digit)] := by
  have h2 : ((!d.inputs.clock) && (M.out (M.eval d.mstate d.inputs)).valid_output) = true := by
    simp only [iterate, Bool.and_eq_true] at h
    simp [h.1.1, h.1.2]
  refine ⟨Event.evalCall ::
    ((if d.is_first_run then [Event.setResetN true, Event.setStart true] else []) ++
      [Event.setClock (!d.inputs.clock)]), ?_⟩
  simp [iterate, h2]

/-- `break` is reached only when `valid_output` is read true. -/
theorem brk_requires_valid {M : Module σ} {d : Driver σ}
    (h : (M.out (M.eval d.mstate d.inputs)).valid_output = false) :
    (iterate M d).brk = false := by
  simp [iterate, h]

/-! ### Facts about the loop. -/

/-- Every event in the loop's trace belongs to one of the executed loop-body
executions. -/
theorem mem_loopRun_trace {M : Module σ} :
    ∀ (fuel : Nat) (d : Driver σ) (e : Event), e ∈ (loopRun M fuel d).trace →
      ∃ k, k < (loopRun M fuel d).iters ∧ e ∈ (iterate M ((dstep M)^[k] d)).events := by
  intro fuel
  induction fuel with
  | zero => intro d e h; simp [loopRun] at h
  | succ n ih =>
    intro d e h
    by_cases hg : M.gotFinish d.mstate = true
    · simp [loopRun, hg] at h
    · by_cases hb : (iterate M d).brk = true
      · simp only [loopRun, if_neg hg, if_pos hb] at h ⊢
        exact ⟨0, Nat.zero_lt_one, by simpa using h⟩
      · simp only [loopRun, if_neg hg, if_neg hb, List.mem_append] at h ⊢
        rcases h with h | h
        · exact ⟨0, Nat.succ_pos _, by simpa using h⟩
        · rcases ih (iterate M d).driver e h with ⟨k, hk, hmem⟩
          refine ⟨k + 1, by omega, ?_⟩
          rw [Function.iterate_succ_apply]
          exact hmem

/-- The digits printed by the loop are exactly the handshake samples of the
executed loop-body executions, in order. -/
theorem loopRun_trace_emits {M : Module σ} :
    ∀ (fuel : Nat) (d : Driver σ),
      emits (loopRun M fuel d).trace =
        (List.range (loopRun M fuel d).iters).filterMap
          (fun k => sampleAt M ((dstep M)^[k] d)) := by
  intro fuel
  induction fuel with
  | zero => intro d; simp [loopRun, emits]
  | succ n ih =>
    intro d
    by_cases hg : M.gotFinish d.mstate = true
    · simp [loopRun, hg, emits]
    · by_cases hb : (iterate M d).brk = true
      · simp only [loopRun, if_neg hg, if_pos hb]
        rw [emits_iterate]
        have hr1 : List.range 1 = [0] := rfl
        cases h : sampleAt M d <;> simp [h, hr1, List.filterMap_cons]
      · simp only [loopRun, if_neg hg, if_neg hb]
        rw [show (iterate M d).events ++ (loopRun M n (iterate M d).driver).trace =
          (iterate M d).events ++ (loopRun M n (iterate M d).driver).trace from rfl]
        rw [emits, List.filterMap_append, ← emits, ← emits, emits_iterate,
          ih (iterate M d).driver, List.range_succ_eq_map]
        rw [List.filterMap_cons]
        simp only [Function.iterate_zero_apply, List.filterMap_map]
        have hcomp : (fun k => sampleAt M ((dstep M)^[k] d)) ∘ Nat.succ =
            fun k => sampleAt M ((dstep M)^[k] (dstep M d)) := by
          funext k
          simp [Function.comp, Function.iterate_succ_apply]
        rw [hcomp]
        cases h : sampleAt M d <;> simp [h, dstep]

/-- The loop itself never performs `top->final()`. -/
theorem loopRun_not_mem_finalCall (M : Module σ) (fuel : Nat) (d : Driver σ) :
    Event.finalCall ∉ (loopRun M fuel d).trace := by
  intro h
  rcases mem_loopRun_trace fuel d _ h with ⟨k, -, hm⟩
  rcases mem_iterate_events hm with h | ⟨-, h | h⟩ | h | ⟨x, h, -, -⟩ <;> simp at h

/-- The loop itself never performs `delete top`. -/
theorem loopRun_not_mem_deleteCall (M : Module σ) (fuel : Nat) (d : Driver σ) :
    Event.deleteCall ∉ (loopRun M fuel d).trace := by
  intro h
  rcases mem_loopRun_trace fuel d _ h with ⟨k, -, hm⟩
  rcases mem_iterate_events hm with h | ⟨-, h | h⟩ | h | ⟨x, h, -, -⟩ <;> simp at h

/-- The loop never assigns the `digits` port. -/
theorem loopRun_not_mem_setDigits (M : Module σ) (fuel : Nat) (d : Driver σ) (n : Nat) :
    Event.setDigits n ∉ (loopRun M fuel d).trace := by
  intro h
  rcases mem_loopRun_trace fuel d _ h with ⟨k, -, hm⟩
  rcases mem_iterate_events hm with h | ⟨-, h | h⟩ | h | ⟨x, h, -, -⟩ <;> simp at h

/-- Once the first-run flag is down, the loop never writes `reset_n` again. -/
theorem loopRun_not_mem_setResetN (M : Module σ) (fuel : Nat) (d : Driver σ)
    (hd : d.is_first_run = false) (b : Bool) :
    Event.setResetN b ∉ (loopRun M fuel d).trace := by
  intro h
  rcases mem_loopRun_trace fuel d _ h with ⟨k, -, hm⟩
  rcases mem_iterate_events hm with h | ⟨hfst, -⟩ | h | ⟨x, h, -, -⟩
  · simp at h
  · rw [iterate_first_false M d hd k] at hfst
    exact Bool.false_ne_true hfst
  · simp at h
  · simp at h

/-- Once the first-run flag is down, the loop never writes `start` again. -/
theorem loopRun_not_mem_setStart (M : Module σ) (fuel : Nat) (d : Driver σ)
    (hd : d.is_first_run = false) (b : Bool) :
    Event.setStart b ∉ (loopRun M fuel d).trace := by
  intro h
  rcases mem_loopRun_trace fuel d _ h with ⟨k, -, hm⟩
  rcases mem_iterate_events hm with h | ⟨hfst, -⟩ | h | ⟨x, h, -, -⟩
  · simp at h
  · rw [iterate_first_false M d hd k] at hfst
    exact Bool.false_ne_true hfst
  · simp at h
  · simp at h

/-- If the loop exits through `break`, it does so at the first loop-body
execution whose rising-edge sample has `valid_output` and `done` both true
(no earlier body execution broke, and the runtime never reported completion
before), that execution is counted, and its printed digit is the last event
of the loop's trace. -/
theorem loopRun_break_spec {M : Module σ} :
    ∀ (fuel : Nat) (d : Driver σ),
      (loopRun M fuel d).exit = some ExitKind.breakExit →
      ∃ n, (loopRun M fuel d).iters = n + 1 ∧
        (∀ k, k < n → (iterate M ((dstep M)^[k] d)).brk = false ∧
          M.gotFinish ((dstep M)^[k] d).mstate = false) ∧
        M.gotFinish ((dstep M)^[n] d).mstate = false ∧
        (iterate M ((dstep M)^[n] d)).brk = true ∧
        ∃ pre, (loopRun M fuel d).trace = pre ++
          [Event.emit ((M.out (M.eval ((dstep M)^[n] d).mstate
            ((dstep M)^[n] d).inputs)).pi_digit)] := by
  intro fuel
  induction fuel with
  | zero => intro d h; simp [loopRun] at h
  | succ m ih =>
    intro d h
    by_cases hg : M.gotFinish d.mstate = true
    · simp [loopRun, hg] at h
    · by_cases hb : (iterate M d).brk = true
      · refine ⟨0, ?_, ?_, ?_, ?_, ?_⟩
        · simp [loopRun, hg, hb]
        · intro k hk; omega
        · simpa using Bool.of_not_eq_true hg
        · simpa using hb
        · simp only [loopRun, if_neg hg, if_pos hb]
          simpa using iterate_events_of_brk hb
      · simp only [loopRun, if_neg hg, if_neg hb] at h
        rcases ih (iterate M d).driver h with ⟨n, hiters, hmin, hgf, hbrk, pre, htr⟩
        refine ⟨n + 1, ?_, ?_, ?_, ?_, ?_⟩
        · simp only [loopRun, if_neg hg, if_neg hb]
          omega
        · intro k hk
          cases k with
          | zero =>
            constructor
            · simpa using Bool.of_not_eq_true hb
            · simpa using Bool.of_not_eq_true hg
          | succ j =>
            rw [Function.iterate_succ_apply]
            exact hmin j (by omega)
        · rw [Function.iterate_succ_apply]
          exact hgf
        · rw [Function.iterate_succ_apply]
          exact hbrk
        · refine ⟨(iterate M d).events ++ pre, ?_⟩
          simp only [loopRun, if_neg hg, if_neg hb]
          rw [Function.iterate_succ_apply, htr, List.append_assoc]
          rfl

/-- If the producer never asserts `valid_output`, the loop cannot exit
through `break`. -/
theorem loopRun_never_valid_no_break {M : Module σ}
    (hv : ∀ s, (M.out s).valid_output = false) :
    ∀ (fuel : Nat) (d : Driver σ),
      (loopRun M fuel d).exit ≠ some ExitKind.breakExit := by
  intro fuel
  induction fuel with
  | zero => intro d h; simp [loopRun] at h
  | succ m ih =>
    intro d h
    by_cases hg : M.gotFinish d.mstate = true
    · simp [loopRun, hg] at h
    · have hb : (iterate M d).brk = false := brk_requires_valid (hv _)
      simp only [loopRun, if_neg hg, hb, Bool.false_eq_true, if_false] at h
      exact ih (iterate M d).driver h

/-- When the loop body actually runs at least once starting from the
first-run state, the loop's trace opens with the first evaluation followed
immediately by the one-shot `reset_n`/`start` raising, and no `reset_n`,
`start` or `digits` assignment ever occurs afterwards. -/
theorem loopRun_first_trace {M : Module σ} (fuel : Nat) (d : Driver σ)
    (hg : M.gotFinish d.mstate = false) (hf : d.is_first_run = true) :
    ∃ rest, (loopRun M (fuel + 1) d).trace =
      Event.evalCall :: Event.setResetN true :: Event.setStart true :: rest ∧
      (∀ b, Event.setResetN b ∉ rest) ∧
      (∀ b, Event.setStart b ∉ rest) ∧
      (∀ n, Event.setDigits n ∉ rest) := by
  have hg' : ¬M.gotFinish d.mstate = true := by simp [hg]
  have hevents : (iterate M d).events =
      Event.evalCall :: Event.setResetN true :: Event.setStart true ::
        (Event.setClock (!d.inputs.clock) ::
          (if (!d.inputs.clock) && (M.out (M.eval d.mstate d.inputs)).valid_output then
            [Event.emit (M.out (M.eval d.mstate d.inputs)).pi_digit] else [])) := by
    simp [iterate, hf]
  have hE : ∀ e ∈ (Event.setClock (!d.inputs.clock) ::
      (if (!d.inputs.clock) && (M.out (M.eval d.mstate d.inputs)).valid_output then
        [Event.emit (M.out (M.eval d.mstate d.inputs)).pi_digit] else [])),
      (∀ b, e ≠ Event.setResetN b) ∧ (∀ b, e ≠ Event.setStart b) ∧
        (∀ n, e ≠ Event.setDigits n) := by
    intro e he
    rcases List.mem_cons.mp he with rfl | he
    · simp
    · split at he
      · rw [List.mem_singleton.mp he]
        simp
      · simp at he
  by_cases hb : (iterate M d).brk = true
  · refine ⟨Event.setClock (!d.inputs.clock) ::
      (if (!d.inputs.clock) && (M.out (M.eval d.mstate d.inputs)).valid_output then
        [Event.emit (M.out (M.eval d.mstate d.inputs)).pi_digit] else []),
      ?_, ?_, ?_, ?_⟩
    · simp only [loopRun, if_neg hg', if_pos hb]
      exact hevents
    · intro b hmem
      exact absurd rfl ((hE _ hmem).1 b)
    · intro b hmem
      exact absurd rfl ((hE _ hmem).2.1 b)
    · intro n hmem
      exact absurd rfl ((hE _ hmem).2.2 n)
  · refine ⟨Event.setClock (!d.inputs.clock) ::
      ((if (!d.inputs.clock) && (M.out (M.eval d.mstate d.inputs)).valid_output then
        [Event.emit (M.out (M.eval d.mstate d.inputs)).pi_digit] else []) ++
        (loopRun M fuel (iterate M d).driver).trace), ?_, ?_, ?_, ?_⟩
    · simp only [loopRun, if_neg hg', if_neg hb]
      rw [hevents]
      rfl
    · intro b hmem
      rcases List.mem_cons.mp hmem with hc | hmem
      · exact absurd hc (by simp)
      · rcases List.mem_append.mp hmem with hmem | hmem
        · exact absurd rfl ((hE _ (List.mem_cons_of_mem _ hmem)).1 b)
        · exact loopRun_not_mem_setResetN M fuel _ (dstep_is_first_run M d) b hmem
    · intro b hmem
      rcases List.mem_cons.mp hmem with hc | hmem
      · exact absurd hc (by simp)
      · rcases List.mem_append.mp hmem with hmem | hmem
        · exact absurd rfl ((hE _ (List.mem_cons_of_mem _ hmem)).2.1 b)
        · exact loopRun_not_mem_setStart M fuel _ (dstep_is_first_run M d) b hmem
    · intro n hmem
      rcases List.mem_cons.mp hmem with hc | hmem
      · exact absurd hc (by simp)
      · rcases List.mem_append.mp hmem with hmem | hmem
        · exact absurd rfl ((hE _ (List.mem_cons_of_mem _ hmem)).2.2 n)
        · exact loopRun_not_mem_setDigits M fuel _ n hmem

/-! ### Facts about a whole run. -/

/-- A digit print witnessed inside one loop-body execution happened on a
rising edge (the pre-toggle clock was low), with `valid_output` read true,
and printed exactly the `pi_digit` of the state the body's `eval` produced. -/
theorem emit_mem_iterate {M : Module σ} {d : Driver σ} {x : Nat}
    (h : Event.emit x ∈ (iterate M d).events) :
    d.inputs.clock = false ∧
    (M.out (M.eval d.mstate d.inputs)).valid_output = true ∧
    x = (M.out (M.eval d.mstate d.inputs)).pi_digit := by
  rcases mem_iterate_events h with h | ⟨-, h | h⟩ | h | ⟨y, heq, hc, hval⟩
  · simp at h
  · simp at h
  · simp at h
  · simp at h
  · injection heq with hxy
    subst hxy
    simp only [Bool.and_eq_true] at hc
    obtain ⟨hnc, hvld⟩ := hc
    refine ⟨?_, hvld, hval⟩
    cases hcl : d.inputs.clock
    · rfl
    · rw [hcl] at hnc
      simp at hnc

/-- Each loop-body execution calls `eval` exactly once, as its very first
action. -/
theorem iterate_events_head (M : Module σ) (d : Driver σ) :
    ∃ rest, (iterate M d).events = Event.evalCall :: rest ∧ Event.evalCall ∉ rest := by
  refine ⟨(if d.is_first_run then [Event.setResetN true, Event.setStart true] else []) ++
    (Event.setClock (!d.inputs.clock) ::
      (if (!d.inputs.clock) && (M.out (M.eval d.mstate d.inputs)).valid_output then
        [Event.emit (M.out (M.eval d.mstate d.inputs)).pi_digit] else [])), rfl, ?_⟩
  cases h1 : d.is_first_run <;>
    cases h2 : (!d.inputs.clock) && (M.out (M.eval d.mstate d.inputs)).valid_output <;>
      simp [h1, h2]

/-- The digits a run prints are exactly the handshake samples of its executed
loop-body executions, in chronological order. -/
theorem run_trace_emits (M : Module σ) (fuel : Nat) :
    emits (run M fuel).trace =
      (List.range (run M fuel).iters).filterMap (fun k => sampleAt M (dstates M k)) := by
  have h1 : emits (run M fuel).trace = emits (loopRun M fuel (initDriver M)).trace := by
    rw [show (run M fuel).trace = initTrace ++ (loopRun M fuel (initDriver M)).trace ++
      (if (loopRun M fuel (initDriver M)).exit.isSome then
        [Event.finalCall, Event.deleteCall] else []) from rfl]
    rw [emits, emits, List.filterMap_append, List.filterMap_append]
    have e1 : List.filterMap emitVal initTrace = [] := rfl
    have e2 : List.filterMap emitVal
        (if (loopRun M fuel (initDriver M)).exit.isSome then
          [Event.finalCall, Event.deleteCall] else []) = [] := by
      split <;> rfl
    rw [e1, e2]
    simp
  rw [h1, loopRun_trace_emits]
  rfl

/-- Whenever the loop actually exits, the run's trace ends with exactly one
`top->final()` followed by exactly one `delete top`. -/
theorem run_trace_final (M : Module σ) (fuel : Nat)
    (h : (run M fuel).exit.isSome = true) :
    ∃ pre, (run M fuel).trace = pre ++ [Event.finalCall, Event.deleteCall] ∧
      Event.finalCall ∉ pre ∧ Event.deleteCall ∉ pre := by
  have h' : (loopRun M fuel (initDriver M)).exit.isSome = true := h
  refine ⟨initTrace ++ (loopRun M fuel (initDriver M)).trace, ?_, ?_, ?_⟩
  · rw [show (run M fuel).trace = initTrace ++ (loopRun M fuel (initDriver M)).trace ++
      (if (loopRun M fuel (initDriver M)).exit.isSome then
        [Event.finalCall, Event.deleteCall] else []) from rfl]
    rw [h']
    simp
  · intro hmem
    rcases List.mem_append.mp hmem with hmem | hmem
    · simp [initTrace] at hmem
    · exact loopRun_not_mem_finalCall M fuel _ hmem
  · intro hmem
    rcases List.mem_append.mp hmem with hmem | hmem
    · simp [initTrace] at hmem
    · exact loopRun_not_mem_deleteCall M fuel _ hmem

/-- The `digits` port value held by the driver never changes. -/
theorem dstates_digits (M : Module σ) (k : Nat) :
    (dstates M k).inputs.digits = REQUEST_DIGITS := by
  induction k with
  | zero => rfl
  | succ j ih =>
    show ((dstep M)^[j + 1] (initDriver M)).inputs.digits = REQUEST_DIGITS
    rw [Function.iterate_succ_apply']
    rw [dstep_digits]
    exact ih

/-- From the second loop-body execution on, the first-run flag is down. -/
theorem dstates_first_run_false (M : Module σ) (k : Nat) (hk : 1 ≤ k) :
    (dstates M k).is_first_run = false := by
  cases k with
  | zero => omega
  | succ j =>
    show ((dstep M)^[j + 1] (initDriver M)).is_first_run = false
    rw [Function.iterate_succ_apply']
    exact dstep_is_first_run M _

/-- After the first loop-body execution, `reset_n` and `start` are held high
forever. -/
theorem dstates_held_high (M : Module σ) (k : Nat) (hk : 1 ≤ k) :
    (dstates M k).inputs.reset_n = true ∧ (dstates M k).inputs.start = true := by
  induction k with
  | zero => omega
  | succ j ih =>
    have hstep : dstates M (j + 1) = dstep M (dstates M j) := by
      show (dstep M)^[j + 1] (initDriver M) = _
      rw [Function.iterate_succ_apply']
      rfl
    by_cases hj : 1 ≤ j
    · have hfirst : (dstates M j).is_first_run = false := dstates_first_run_false M j hj
      obtain ⟨hr, hs⟩ := ih hj
      rw [hstep]
      constructor
      · show (if (dstates M j).is_first_run then true else (dstates M j).inputs.reset_n) = true
        rw [hfirst, hr]
        rfl
      · show (if (dstates M j).is_first_run then true else (dstates M j).inputs.start) = true
        rw [hfirst, hs]
        rfl
    · have hj0 : j = 0 := by omega
      subst hj0
      rw [hstep]
      exact ⟨rfl, rfl⟩

/-! ### The claims. -/

/-- C1: whenever the run exits through `break`, it does so at the earliest
rising-edge cycle whose sample has `valid_output` and `done` both true (no
earlier cycle broke or was reported finished), that cycle's digit is printed
before terminating, and nothing but `final`/`delete` follows it in the trace;
moreover `done` without `valid_output` can never cause the `break`. -/
theorem C1_loop_termination {σ : Type} (M : Module σ) (fuel : Nat)
    (h : (run M fuel).exit = some ExitKind.breakExit) :
    (∀ d : Driver σ, (M.out (M.eval d.mstate d.inputs)).valid_output = false →
      (iterate M d).brk = false) ∧
    ∃ n, (run M fuel).iters = n + 1 ∧
      (∀ k, k < n → (iterate M (dstates M k)).brk = false ∧
        M.gotFinish (dstates M k).mstate = false) ∧
      M.gotFinish (dstates M n).mstate = false ∧
      (iterate M (dstates M n)).brk = true ∧
      (M.out (M.eval (dstates M n).mstate (dstates M n).inputs)).valid_output = true ∧
      ∃ pre, (run M fuel).trace = pre ++
        [Event.emit ((M.out (M.eval (dstates M n).mstate (dstates M n).inputs)).pi_digit),
         Event.finalCall, Event.deleteCall] := by
  refine ⟨fun d hv => brk_requires_valid hv, ?_⟩
  have h' : (loopRun M fuel (initDriver M)).exit = some ExitKind.breakExit := h
  rcases loopRun_break_spec fuel (initDriver M) h' with ⟨n, hiters, hmin, hgf, hbrk, pre, htr⟩
  have hvalid : (M.out (M.eval (dstates M n).mstate (dstates M n).inputs)).valid_output
      = true := by
    have h2 := hbrk
    simp only [iterate, Bool.and_eq_true] at h2
    exact h2.1.2
  refine ⟨n, hiters, hmin, hgf, hbrk, hvalid, initTrace ++ pre, ?_⟩
  have hsome : (loopRun M fuel (initDriver M)).exit.isSome = true := by rw [h']; rfl
  rw [show (run M fuel).trace = initTrace ++ (loopRun M fuel (initDriver M)).trace ++
    (if (loopRun M fuel (initDriver M)).exit.isSome then
      [Event.finalCall, Event.deleteCall] else []) from rfl]
  rw [hsome, htr]
  simp [List.append_assoc]
  rfl

theorem C1_loop_termination_witness :
    ∃ n, (run demoM 7).iters = n + 1 ∧ (iterate demoM (dstates demoM n)).brk = true ∧
      ∃ pre, (run demoM 7).trace = pre ++
        [Event.emit ((demoM.out (demoM.eval (dstates demoM n).mstate
          (dstates demoM n).inputs)).pi_digit),
         Event.finalCall, Event.deleteCall] := by
  obtain ⟨-, n, h1, -, -, h2, -, h3⟩ := C1_loop_termination demoM 7 (by decide)
  exact ⟨n, h1, h2, h3⟩

/-- C2: the sequence of printed digits of any run equals, element by element
and in chronological order, the sequence of `pi_digit` samples at exactly the
rising-edge cycles where `valid_output` was true — no reordering, drop or
duplication — and the text on standard output is determined by that sample
sequence (`run`, and hence `stdoutOf`, is a function of the module and the
fuel, so the output is deterministic). -/
theorem C2_order_preservation (M : Module σ) (fuel : Nat) :
    emits (run M fuel).trace =
      (List.range (run M fuel).iters).filterMap (fun k => sampleAt M (dstates M k)) ∧
    stdoutOf M fuel = String.join
      (((List.range (run M fuel).iters).filterMap
        (fun k => sampleAt M (dstates M k))).map formatLine) := by
  refine ⟨run_trace_emits M fuel, ?_⟩
  rw [stdoutOf, run_trace_emits]

/-- C3: in any single loop-body execution at most one digit is printed, a
printed digit requires the pre-toggle clock low (a rising edge) and
`valid_output` true at that very observation, and nothing is printed on a
falling-phase execution or when `valid_output` is false. -/
theorem C3_single_sample_per_cycle (M : Module σ) (d : Driver σ) :
    (emits (iterate M d).events).length ≤ 1 ∧
    (∀ x, Event.emit x ∈ (iterate M d).events →
      d.inputs.clock = false ∧
      (M.out (M.eval d.mstate d.inputs)).valid_output = true ∧
      x = (M.out (M.eval d.mstate d.inputs)).pi_digit) ∧
    (d.inputs.clock = true → emits (iterate M d).events = []) ∧
    ((M.out (M.eval d.mstate d.inputs)).valid_output = false →
      emits (iterate M d).events = []) := by
  refine ⟨?_, fun x hx => emit_mem_iterate hx, ?_, ?_⟩
  · rw [emits_iterate]
    cases sampleAt M d <;> simp
  · intro hcl
    rw [emits_iterate, sampleAt]
    simp [hcl]
  · intro hv
    rw [emits_iterate, sampleAt]
    simp [hv]

theorem C3_single_sample_per_cycle_witness :
    (emits (iterate demoM (dstates demoM 2)).events).length ≤ 1 :=
  (C3_single_sample_per_cycle demoM (dstates demoM 2)).1

/-- C4: in any run whose loop body executes at least once, the raising of
`reset_n` and of `start` happens together, exactly once, immediately after
the first `eval`, and neither port is written anywhere else after that. -/
theorem C4_exactly_once_init (M : Module σ) (fuel : Nat)
    (hg : M.gotFinish M.init = false) (hf : 1 ≤ fuel) :
    ∃ rest, (run M fuel).trace =
      initTrace ++ Event.evalCall :: Event.setResetN true :: Event.setStart true :: rest ∧
      (∀ b, Event.setResetN b ∉ rest) ∧ (∀ b, Event.setStart b ∉ rest) := by
  cases fuel with
  | zero => omega
  | succ m =>
    rcases loopRun_first_trace m (initDriver M) hg rfl with ⟨rest₀, htr, hrn, hst, -⟩
    refine ⟨rest₀ ++ (if (loopRun M (m + 1) (initDriver M)).exit.isSome then
      [Event.finalCall, Event.deleteCall] else []), ?_, ?_, ?_⟩
    · rw [show (run M (m + 1)).trace =
        initTrace ++ (loopRun M (m + 1) (initDriver M)).trace ++
          (if (loopRun M (m + 1) (initDriver M)).exit.isSome then
            [Event.finalCall, Event.deleteCall] else []) from rfl]
      rw [htr]
      simp [List.append_assoc]
    · intro b hmem
      rcases List.mem_append.mp hmem with hmem | hmem
      · exact hrn b hmem
      · revert hmem
        split <;> simp
    · intro b hmem
      rcases List.mem_append.mp hmem with hmem | hmem
      · exact hst b hmem
      · revert hmem
        split <;> simp

theorem C4_exactly_once_init_witness :
    ∃ rest, (run demoM 7).trace =
      initTrace ++ Event.evalCall :: Event.setResetN true :: Event.setStart true :: rest ∧
      (∀ b, Event.setResetN b ∉ rest) ∧ (∀ b, Event.setStart b ∉ rest) :=
  C4_exactly_once_init demoM 7 rfl (by omega)

/-- C5: each printed line is the zero-padded 9-character decimal rendering of
the printed value, followed by a newline, provided the value is a single
decimal digit. -/
theorem C5_line_format (M : Module σ) (fuel : Nat) (x : Nat)
    (hx : x ∈ emits (run M fuel).trace) (h9 : x ≤ 9) :
    (formatLine x).length = 10 ∧
    (∀ c ∈ (formatLine x).toList.take 9, c.isDigit = true) ∧
    (formatLine x).toList.getLast? = some '\n' ∧
    (formatLine x).toList = List.replicate 8 '0' ++ [Char.ofNat (48 + x), '\n'] := by
  interval_cases x <;> exact ⟨by decide, by decide, by decide, by decide⟩

theorem C5_line_format_witness :
    (formatLine 3).length = 10 ∧
    (∀ c ∈ (formatLine 3).toList.take 9, c.isDigit = true) ∧
    (formatLine 3).toList.getLast? = some '\n' ∧
    (formatLine 3).toList = List.replicate 8 '0' ++ [Char.ofNat (48 + 3), '\n'] :=
  C5_line_format demoM 7 3 (by decide) (by decide)

/-- C6: in every loop-body execution the module is evaluated before any input
signal is mutated — the body's very first action is the (unique) `eval`, so
every clock toggle and every `reset_n`/`start` write of that iteration comes
after it. -/
theorem C6_eval_before_mutation (M : Module σ) (d : Driver σ) :
    ∃ rest, (iterate M d).events = Event.evalCall :: rest ∧ Event.evalCall ∉ rest :=
  iterate_events_head M d

/-- C7: on every exit path of a run that leaves the loop — completion `break`
or the runtime reporting no remaining work — `top->final()` is performed
exactly once, followed by exactly one `delete top`, at the very end of the
trace. -/
theorem C7_finalize_exactly_once (M : Module σ) (fuel : Nat)
    (h : (run M fuel).exit.isSome = true) :
    ∃ pre, (run M fuel).trace = pre ++ [Event.finalCall, Event.deleteCall] ∧
      Event.finalCall ∉ pre ∧ Event.deleteCall ∉ pre :=
  run_trace_final M fuel h

theorem C7_finalize_exactly_once_witness :
    ∃ pre, (run demoM 7).trace = pre ++ [Event.finalCall, Event.deleteCall] ∧
      Event.finalCall ∉ pre ∧ Event.deleteCall ∉ pre :=
  C7_finalize_exactly_once demoM 7 (by decide)

/-- C8: if the producer never asserts `valid_output` and the runtime
eventually reports no remaining work, the run prints nothing, exits the loop
through the `gotFinish` path, finalizes, and terminates with exit status 0. -/
theorem C8_never_valid_clean_exit (M : Module σ) (fuel : Nat)
    (hv : ∀ s, (M.out s).valid_output = false)
    (h : (run M fuel).exit.isSome = true) :
    emits (run M fuel).trace = [] ∧
    (run M fuel).exit = some ExitKind.finishExit ∧
    exitCode M fuel = some 0 ∧
    ∃ pre, (run M fuel).trace = pre ++ [Event.finalCall, Event.deleteCall] := by
  have hexit : (run M fuel).exit = some ExitKind.finishExit := by
    cases hE : (run M fuel).exit with
    | none => rw [hE] at h; simp at h
    | some k =>
      cases k with
      | breakExit => exact absurd hE (loopRun_never_valid_no_break hv fuel (initDriver M))
      | finishExit => rfl
  refine ⟨?_, hexit, ?_, ?_⟩
  · rw [run_trace_emits]
    have hnone : ∀ k, sampleAt M (dstates M k) = none := by
      intro k
      rw [sampleAt]
      simp [hv]
    simp [hnone]
  · rw [exitCode, hexit]
    rfl
  · rcases run_trace_final M fuel h with ⟨pre, hpre, -, -⟩
    exact ⟨pre, hpre⟩

theorem C8_never_valid_clean_exit_witness :
    emits (run quietM 10).trace = [] ∧
    (run quietM 10).exit = some ExitKind.finishExit ∧
    exitCode quietM 10 = some 0 ∧
    ∃ pre, (run quietM 10).trace = pre ++ [Event.finalCall, Event.deleteCall] :=
  C8_never_valid_clean_exit quietM 10 (fun _ => rfl) (by decide)

/-- C9: the `digits` port is written exactly once, at initialization, with the
configured constant; in any run whose loop body executes at least once,
`reset_n` and `start` are raised in the first iteration and none of the three
ports is ever written afterwards; and the driver-held values stay put —
`digits` is constant over all iterations and `reset_n`/`start` are held high
from the first iteration on. -/
theorem C9_inputs_frame (M : Module σ) (fuel : Nat)
    (hg : M.gotFinish M.init = false) (hf : 1 ≤ fuel) :
    ((run M fuel).trace.count (Event.setDigits REQUEST_DIGITS) = 1 ∧
      ∀ n, Event.setDigits n ∈ (run M fuel).trace → n = REQUEST_DIGITS) ∧
    (∃ rest, (run M fuel).trace =
      initTrace ++ Event.evalCall :: Event.setResetN true :: Event.setStart true :: rest ∧
      (∀ b, Event.setResetN b ∉ rest) ∧ (∀ b, Event.setStart b ∉ rest) ∧
      (∀ n, Event.setDigits n ∉ rest)) ∧
    (∀ k, (dstates M k).inputs.digits = REQUEST_DIGITS) ∧
    (∀ k, 1 ≤ k → (dstates M k).inputs.reset_n = true ∧ (dstates M k).inputs.start = true) := by
  cases fuel with
  | zero => omega
  | succ m =>
    refine ⟨⟨?_, ?_⟩, ?_, fun k => dstates_digits M k, fun k hk => dstates_held_high M k hk⟩
    · rw [show (run M (m + 1)).trace =
        initTrace ++ (loopRun M (m + 1) (initDriver M)).trace ++
          (if (loopRun M (m + 1) (initDriver M)).exit.isSome then
            [Event.finalCall, Event.deleteCall] else []) from rfl]
      rw [List.count_append, List.count_append]
      have e1 : initTrace.count (Event.setDigits REQUEST_DIGITS) = 1 := by decide
      have e2 : (loopRun M (m + 1) (initDriver M)).trace.count
          (Event.setDigits REQUEST_DIGITS) = 0 :=
        List.count_eq_zero.mpr (loopRun_not_mem_setDigits M (m + 1) _ _)
      have e3 : (if (loopRun M (m + 1) (initDriver M)).exit.isSome then
          [Event.finalCall, Event.deleteCall] else []).count
            (Event.setDigits REQUEST_DIGITS) = 0 := by
        split <;> rfl
      rw [e1, e2, e3]
    · intro n hmem
      rw [show (run M (m + 1)).trace =
        initTrace ++ (loopRun M (m + 1) (initDriver M)).trace ++
          (if (loopRun M (m + 1) (initDriver M)).exit.isSome then
            [Event.finalCall, Event.deleteCall] else []) from rfl] at hmem
      rcases List.mem_append.mp hmem with hmem | hmem
      · rcases List.mem_append.mp hmem with hmem | hmem
        · simpa [initTrace] using hmem
        · exact absurd hmem (loopRun_not_mem_setDigits M (m + 1) _ n)
      · revert hmem
        split <;> simp
    · rcases loopRun_first_trace m (initDriver M) hg rfl with ⟨rest₀, htr, hrn, hst, hdig⟩
      refine ⟨rest₀ ++ (if (loopRun M (m + 1) (initDriver M)).exit.isSome then
        [Event.finalCall, Event.deleteCall] else []), ?_, ?_, ?_, ?_⟩
      · rw [show (run M (m + 1)).trace =
          initTrace ++ (loopRun M (m + 1) (initDriver M)).trace ++
            (if (loopRun M (m + 1) (initDriver M)).exit.isSome then
              [Event.finalCall, Event.deleteCall] else []) from rfl]
        rw [htr]
        simp [List.append_assoc]
      · intro b hmem
        rcases List.mem_append.mp hmem with hmem | hmem
        · exact hrn b hmem
        · revert hmem
          split <;> simp
      · intro b hmem
        rcases List.mem_append.mp hmem with hmem | hmem
        · exact hst b hmem
        · revert hmem
          split <;> simp
      · intro n hmem
        rcases List.mem_append.mp hmem with hmem | hmem
        · exact hdig n hmem
        · revert hmem
          split <;> simp

theorem C9_inputs_frame_witness :
    (run demoM 7).trace.count (Event.setDigits REQUEST_DIGITS) = 1 ∧
      (dstates demoM 3).inputs.digits = REQUEST_DIGITS ∧
      (dstates demoM 3).inputs.reset_n = true := by
  obtain ⟨⟨h1, -⟩, -, h3, h4⟩ := C9_inputs_frame demoM 7 rfl (by omega)
  exact ⟨h1, h3 3, (h4 3 (by omega)).1⟩

/-- C10: the output ports sampled after the clock toggle are those produced by
the `eval` performed at the start of that same iteration — an evaluation made
with the pre-toggle (low) clock value on the driver side; no `eval` occurs
between the toggle and the sample, since the body's unique `eval` is its first
action; and on the very first iteration that evaluation was made with
`reset_n` still low. -/
theorem C10_pre_toggle_sampling (M : Module σ) (d : Driver σ) :
    (∀ x, Event.emit x ∈ (iterate M d).events →
      d.inputs.clock = false ∧ x = (M.out (M.eval d.mstate d.inputs)).pi_digit) ∧
    (∃ rest, (iterate M d).events = Event.evalCall :: rest ∧ Event.evalCall ∉ rest) ∧
    initInputs.reset_n = false ∧
    (∀ x, Event.emit x ∈ (iterate M (initDriver M)).events →
      x = (M.out (M.eval M.init initInputs)).pi_digit) :=
  ⟨fun _ hx => ⟨(emit_mem_iterate hx).1, (emit_mem_iterate hx).2.2⟩,
    iterate_events_head M d, rfl,
    fun _ hx => (emit_mem_iterate hx).2.2⟩

end PiDriver
